import Mathlib

/-!
Verification development for the pyTRS PLSS land-description parser.

The parsing engine itself is not present in this repository snapshot (only
its documentation, guides and doc examples are), so the engine is modelled
here from the specification: each definition whose doc comment starts with
`Modelled from the spec:` is a faithful shallow embedding of the behavior
the specification and the in-repo documentation describe, over the text
fragment that the documented examples exercise.  Text is a list of Unicode
characters, as the spec prescribes.
-/

namespace Pytrs

/-! ## Basic text utilities -/

/-- Whitespace test used for word splitting. -/
def isWS (c : Char) : Bool :=
  c == ' ' || c == '\n' || c == '\t' || c == '\r'

/-- Accumulator-style word splitter (structural, kernel-computable). -/
def wordsAux : List Char → List Char → List (List Char)
  | [], acc => if acc = [] then [] else [acc.reverse]
  | c :: cs, acc =>
    if isWS c then
      (if acc = [] then wordsAux cs [] else acc.reverse :: wordsAux cs [])
    else wordsAux cs (c :: acc)

/-- Split a text into its whitespace-separated words. -/
def wordsOf (s : List Char) : List (List Char) := wordsAux s []

/-- Rejoin words with single spaces (whitespace canonicalization). -/
def renderWords : List (List Char) → List Char
  | [] => []
  | [w] => w
  | w :: ws => w ++ ' ' :: renderWords ws

/-! ## Directions and configuration -/

/-- North/South direction of a township. -/
inductive NSDir | north | south
deriving DecidableEq, Repr

/-- East/West direction of a range. -/
inductive EWDir | east | west
deriving DecidableEq, Repr

/-- Lowercase letter of an N/S direction, as used in the standard format. -/
def NSDir.lo : NSDir → Char
  | .north => 'n'
  | .south => 's'

/-- Uppercase letter of an N/S direction, as used in canonical Twp tokens. -/
def NSDir.up : NSDir → Char
  | .north => 'N'
  | .south => 'S'

/-- Lowercase letter of an E/W direction, as used in the standard format. -/
def EWDir.lo : EWDir → Char
  | .east => 'e'
  | .west => 'w'

/-- Uppercase letter of an E/W direction, as used in canonical Rge tokens. -/
def EWDir.up : EWDir → Char
  | .east => 'E'
  | .west => 'W'

/-- Modelled from the spec: the structured configuration record of section 6
(the fragment of the option surface that the parsing engine consults). -/
structure Config where
  default_ns : NSDir := .north
  default_ew : EWDir := .west
  parse_qq : Bool := false
  clean_qq : Bool := false
  ocr_scrub : Bool := false
  qq_depth_min : Nat := 2
  qq_depth_max : Option Nat := none
  qq_depth : Option Nat := none
  break_halves : Bool := false

/-! ## Preprocessor (spec section 4.B) -/

/-- Character substitutions for OCR cleanup in digit contexts. -/
def subChar (c : Char) : Char :=
  if c == 'O' then '0'
  else if c == 'o' then '0'
  else if c == 'l' then '1'
  else if c == 'I' then '1'
  else c

/-- A word is a digit context when it has a digit and every character is a
digit or a commonly misread letter. -/
def scrubTarget (w : List Char) : Bool :=
  w.any Char.isDigit &&
    w.all (fun c => c.isDigit || c == 'O' || c == 'o' || c == 'l' || c == 'I')

/-- Modelled from the spec: narrowly scoped OCR cleanup, substituting
misread characters inside digit contexts only. -/
def scrubW (w : List Char) : List Char :=
  if scrubTarget w then w.map subChar else w

/-- Test for an N/S direction character (either case). -/
def readNS (c : Char) : Option NSDir :=
  if c == 'N' || c == 'n' then some .north
  else if c == 'S' || c == 's' then some .south
  else none

/-- Test for an E/W direction character (either case). -/
def readEW (c : Char) : Option EWDir :=
  if c == 'E' || c == 'e' then some .east
  else if c == 'W' || c == 'w' then some .west
  else none

/-- Result of matching a compact Twp/Rge token, directions possibly absent. -/
structure TRRaw where
  td : List Char
  tns : Option NSDir
  rd : List Char
  rew : Option EWDir
deriving DecidableEq, Repr

/-- A completed Twp/Rge token, directions filled in. -/
structure TRTok where
  td : List Char
  tns : NSDir
  rd : List Char
  rew : EWDir
deriving DecidableEq, Repr

/-- Take a leading nonempty run of digits off a character list. -/
def takeNum (cs : List Char) : Option (List Char × List Char) :=
  let d := cs.takeWhile Char.isDigit
  if d.isEmpty then none else some (d, cs.dropWhile Char.isDigit)

/-- Read an optional direction character at the front of the remainder. -/
def readOptNS (r : List Char) : Option NSDir × List Char :=
  match r with
  | c :: rest =>
    match readNS c with
    | some d => (some d, rest)
    | none => (none, r)
  | [] => (none, [])

/-- Modelled from the spec: the Token Library's compact Twp/Rge matcher
(forms such as T154N-R97W, T154-R97, 154N-97W), tolerating missing
directions. -/
def parseTRw (w : List Char) : Option TRRaw :=
  let w1 := if w.head? = some 'T' then w.tail else w
  match takeNum w1 with
  | none => none
  | some (td, r1) =>
    let p := readOptNS r1
    match p.2 with
    | '-' :: r3 =>
      let r4 := if r3.head? = some 'R' then r3.tail else r3
      match takeNum r4 with
      | none => none
      | some (rd, r5) =>
        match r5 with
        | [] => some ⟨td, p.1, rd, none⟩
        | [c] =>
          match readEW c with
          | some d => some ⟨td, p.1, rd, some d⟩
          | none => none
        | _ => none
    | _ => none

/-- Fill the missing directions of a matched Twp/Rge with the defaults. -/
def completeTR (cfg : Config) (t : TRRaw) : TRTok :=
  ⟨t.td, t.tns.getD cfg.default_ns, t.rd, t.rew.getD cfg.default_ew⟩

/-- Canonical rendering of a completed Twp/Rge token. -/
def renderTRword (t : TRTok) : List Char :=
  'T' :: (t.td ++ (t.tns.up :: '-' :: 'R' :: (t.rd ++ [t.rew.up])))

/-- Modelled from the spec: the per-word preprocessing rewrite, OCR scrub
(when configured) followed by Twp/Rge completion using the defaults. -/
def fixWord (cfg : Config) (w : List Char) : List Char :=
  let w1 := if cfg.ocr_scrub then scrubW w else w
  match parseTRw w1 with
  | some t => renderTRword (completeTR cfg t)
  | none => w1

/-- Whether preprocessing this word completes a missing direction (and so
emits a TR_fixed flag). -/
def fixEmitsFlag (cfg : Config) (w : List Char) : Bool :=
  let w1 := if cfg.ocr_scrub then scrubW w else w
  match parseTRw w1 with
  | some t => t.tns.isNone || t.rew.isNone
  | none => false

/-- Modelled from the spec: the preprocessor text output, applying OCR
cleanup, Twp/Rge completion and whitespace canonicalization in order. -/
def preprocessText (cfg : Config) (s : List Char) : List Char :=
  renderWords ((wordsOf s).map (fixWord cfg))

/-- Flags produced by preprocessing (one TR_fixed per completion). -/
def preprocessFlags (cfg : Config) (s : List Char) : List String :=
  ((wordsOf s).filter (fixEmitsFlag cfg)).map (fun _ => "TR_fixed")

/-! ## Aliquot trees (spec sections 3, 4.G) -/

/-- Quarter atoms of the aliquot node alphabet. -/
inductive Quarter | NE | NW | SE | SW
deriving DecidableEq, Repr

/-- Half atoms of the aliquot node alphabet. -/
inductive Half | N2 | S2 | E2 | W2
deriving DecidableEq, Repr

/-- Two-character label of a quarter. -/
def Quarter.render : Quarter → List Char
  | .NE => ['N', 'E']
  | .NW => ['N', 'W']
  | .SE => ['S', 'E']
  | .SW => ['S', 'W']

/-- Two-character label of a half. -/
def Half.render : Half → List Char
  | .N2 => ['N', '2']
  | .S2 => ['S', '2']
  | .E2 => ['E', '2']
  | .W2 => ['W', '2']

/-- The two quarters of a parent region covered by a half, in emission
order (the order the documented examples show). -/
def Half.quarters : Half → Quarter × Quarter
  | .N2 => (.NE, .NW)
  | .S2 => (.SE, .SW)
  | .E2 => (.NE, .SE)
  | .W2 => (.NW, .SW)

/-- The four quarters of any region, in the fixed canonical order. -/
def quarterList : List Quarter := [.NE, .NW, .SE, .SW]

/-- Modelled from the spec: one compounded aliquot identifier, a path of
halves sitting over a path of quarters.  `halves` is stored outermost
first, `qs` deepest first; the empty chain is the whole section (ALL). -/
structure Chain where
  halves : List Half
  qs : List Quarter
deriving DecidableEq, Repr

/-- Depth of a chain counted in half-steps: a quarter is two half-steps,
a retained half is one. -/
def Chain.depth2 (c : Chain) : Nat := c.halves.length + 2 * c.qs.length

/-- Deepest-piece-first label of a chain, e.g. E2NENW. -/
def Chain.render (c : Chain) : List Char :=
  ((c.halves.reverse.map Half.render).foldr (· ++ ·) []) ++
    ((c.qs.map Quarter.render).foldr (· ++ ·) [])

/-- String form of a chain label; ALL for the whole section. -/
def Chain.toQQ (c : Chain) : String :=
  if c.halves = [] ∧ c.qs = [] then "ALL" else ⟨c.render⟩

/-- Concatenation of the lists produced by a function over a list. -/
def concatMap (f : α → List β) : List α → List β
  | [] => []
  | a :: l => f a ++ concatMap f l

/-- Modelled from the spec: expansion to the minimum depth, fueled
structurally.  A chain short of the minimum depth is subdivided: its
outermost half is broken into the two constituent quarters of its parent
region; a chain of bare quarters is subdivided into its four quarters. -/
def expandMinGo (m : Nat) : Nat → Chain → List Chain
  | fuel, c =>
    if 2 * m ≤ c.depth2 then [c]
    else
      match fuel with
      | 0 => [c]
      | fuel + 1 =>
        match c.halves with
        | h :: hs =>
          expandMinGo m fuel ⟨hs, h.quarters.1 :: c.qs⟩ ++
            expandMinGo m fuel ⟨hs, h.quarters.2 :: c.qs⟩
        | [] =>
          concatMap (fun q => expandMinGo m fuel ⟨[], q :: c.qs⟩) quarterList

/-- Expansion of one chain to the configured minimum depth. -/
def expandMin (m : Nat) (c : Chain) : List Chain := expandMinGo m (2 * m) c

/-- Modelled from the spec: truncation at the maximum depth; pieces deeper
than the cap are coalesced to their ancestor at the cap. -/
def truncMax : Option Nat → Chain → Chain
  | none, c => c
  | some capM, c =>
    if c.depth2 ≤ 2 * capM then c
    else if capM ≤ c.qs.length then ⟨[], c.qs.drop (c.qs.length - capM)⟩
    else ⟨c.halves.take (2 * capM - 2 * c.qs.length), c.qs⟩

/-- Break every half of a chain into its constituent quarters,
outermost half first (the break_halves behavior). -/
def breakAllGo : List Half → List Quarter → List Chain
  | [], qs => [⟨[], qs⟩]
  | h :: hs, qs =>
    breakAllGo hs (h.quarters.1 :: qs) ++ breakAllGo hs (h.quarters.2 :: qs)

/-- Break_halves pass over one chain. -/
def breakAll (c : Chain) : List Chain := breakAllGo c.halves c.qs

/-- Modelled from the spec: the full aliquot tree expander for one chain:
expand to the minimum depth, optionally force halves into quarters, then
truncate at the maximum depth. -/
def expandChain (m : Nat) (capM : Option Nat) (bh : Bool) (c : Chain) :
    List Chain :=
  (concatMap (fun l => if bh then breakAll l else [l]) (expandMin m c)).map
    (truncMax capM)

/-- Modelled from the spec: resolution of the depth configuration.
qq_depth overrides both bounds; a max below the min is clamped to the
max. -/
def resolveDepths (cfg : Config) : Nat × Option Nat :=
  match cfg.qq_depth with
  | some n => (n, some n)
  | none =>
    match cfg.qq_depth_max with
    | some capM =>
      if capM < cfg.qq_depth_min then (capM, some capM)
      else (cfg.qq_depth_min, some capM)
    | none => (cfg.qq_depth_min, none)

/-! ## Aliquot and lot tokenizer (spec section 4.F) -/

/-- List of characters of a string literal, for token tables. -/
def kw (s : String) : List Char := s.toList

/-- Strip trailing separator punctuation from a word. -/
def stripPunct (w : List Char) : List Char :=
  (w.reverse.dropWhile (fun c => c == ',' || c == ':' || c == ';' || c == '.')).reverse

/-- Whether a word is a nonempty run of digits. -/
def isNatWord (w : List Char) : Bool := !w.isEmpty && w.all Char.isDigit

/-- Numeric value of a digit word. -/
def toNatW (w : List Char) : Nat :=
  w.foldl (fun acc c => 10 * acc + (c.toNat - 48)) 0

/-- Whether a word is a dash joining the two ends of a range. -/
def isDashW (w : List Char) : Bool :=
  w == kw "-" || w == kw "–" || w == kw "—"

/-- Whether a word is an enumeration connective. -/
def isAndW (w : List Char) : Bool := w == kw "and" || w == kw "&"

/-- Read a quarter from two characters. -/
def readQuarter (a b : Char) : Option Quarter :=
  if a == 'N' && b == 'E' then some .NE
  else if a == 'N' && b == 'W' then some .NW
  else if a == 'S' && b == 'E' then some .SE
  else if a == 'S' && b == 'W' then some .SW
  else none

/-- Read a half direction from one character. -/
def readHalfLetter (a : Char) : Option Half :=
  if a == 'N' then some .N2
  else if a == 'S' then some .S2
  else if a == 'E' then some .E2
  else if a == 'W' then some .W2
  else none

/-- Munch one aliquot atom from the front of a word: a quarter written with
a quarter marker (NE/4, NE4, NE¼) or a half written with a half marker
(N/2, N2, N½). -/
def munchAtom (w : List Char) : Option ((Half ⊕ Quarter) × List Char) :=
  match w with
  | a :: b :: rest =>
    match readQuarter a b with
    | some q =>
      match rest with
      | '/' :: '4' :: r => some (.inr q, r)
      | '4' :: r => some (.inr q, r)
      | '¼' :: r => some (.inr q, r)
      | _ =>
        match readHalfLetter a with
        | some h =>
          match b :: rest with
          | '/' :: '2' :: r => some (.inl h, r)
          | '2' :: r => some (.inl h, r)
          | '½' :: r => some (.inl h, r)
          | _ => none
        | none => none
    | none =>
      match readHalfLetter a with
      | some h =>
        match b :: rest with
        | '/' :: '2' :: r => some (.inl h, r)
        | '2' :: r => some (.inl h, r)
        | '½' :: r => some (.inl h, r)
        | _ => none
      | none => none
  | _ => none

/-- Munch a whole word into aliquot atoms, deepest first (fueled). -/
def munchAtomsGo : Nat → List Char → Option (List (Half ⊕ Quarter))
  | _, [] => some []
  | 0, _ => none
  | fuel + 1, w =>
    match munchAtom w with
    | some (a, r) =>
      match munchAtomsGo fuel r with
      | some l => some (a :: l)
      | none => none
    | none => none

/-- Whether an atom is a half. -/
def atomIsHalf : Half ⊕ Quarter → Bool
  | .inl _ => true
  | .inr _ => false

/-- Build a chain from a deepest-first atom list; the halves must all sit
deeper than the quarters, otherwise the word is rejected. -/
def atomsToChain (l : List (Half ⊕ Quarter)) : Option Chain :=
  let hs := l.takeWhile atomIsHalf
  let qs := l.dropWhile atomIsHalf
  if qs.all (fun a => !atomIsHalf a) then
    some ⟨(hs.filterMap (fun a => match a with | .inl h => some h | .inr _ => none)).reverse,
      qs.filterMap (fun a => match a with | .inl _ => none | .inr q => some q)⟩
  else none

/-- Whether a word is exactly a bare two-letter quarter token. -/
def bareQuarter (w : List Char) : Option Quarter :=
  match w with
  | [a, b] => readQuarter a b
  | _ => none

/-- Modelled from the spec: aliquot recognition in one word.  Marked
quarters and halves always match; a bare two-letter quarter is admitted
only in clean_qq mode; ALL denotes the whole section. -/
def parseAliquotWord (clean : Bool) (w : List Char) : Option Chain :=
  if w == kw "ALL" then some ⟨[], []⟩
  else
    match bareQuarter w with
    | some q => if clean then some ⟨[], [q]⟩ else none
    | none =>
      if w.isEmpty then none
      else
        match munchAtomsGo w.length w with
        | some l => atomsToChain l
        | none => none

/-- Push a number onto a reversed number list, filling a pending range;
returns the new list and whether the range ran non-sequentially. -/
def pushNum (ns : List Nat) (n : Nat) (rflag : Bool) : List Nat × Bool :=
  if rflag then
    match ns with
    | l :: _ =>
      if l < n then ((List.range' (l + 1) (n - l)).reverse ++ ns, false)
      else if n < l then (List.range' n (l - n) ++ ns, true)
      else (ns, false)
    | [] => (n :: ns, false)
  else (n :: ns, false)

/-- Whether a word introduces a lot list. -/
def isLotKw (w : List Char) : Bool :=
  w == kw "Lot" || w == kw "Lots" || w == kw "lot" || w == kw "lots" ||
    w == kw "L." || w == kw "Lot." || w == kw "Lots."

/-- Tokenizer fold state for one tract description block. -/
structure TractSt where
  chains : List Chain := []
  lots : List Nat := []
  inlots : Bool := false
  rflag : Bool := false
  flags : List String := []

/-- Modelled from the spec: one step of the lot/aliquot tokenizer over the
words of a tract description block. -/
def tractStep (clean : Bool) (st : TractSt) (w : List Char) : TractSt :=
  let w1 := stripPunct w
  if isLotKw w1 then
    { st with inlots := true, rflag := false }
  else if st.inlots && isNatWord w1 then
    let n := toNatW w1
    if st.lots.contains n then
      { st with flags := st.flags ++ ["dup_lot"], rflag := false }
    else
      let p := pushNum st.lots n st.rflag
      { st with
        lots := p.1
        rflag := false
        flags := st.flags ++ (if p.2 then ["nonSequen_lots"] else []) }
  else if st.inlots && isDashW w1 then
    { st with rflag := true }
  else if st.inlots && isAndW w1 then
    { st with rflag := false }
  else
    match parseAliquotWord clean w1 with
    | some c => { st with chains := st.chains ++ [c], inlots := false, rflag := false }
    | none => { st with inlots := false, rflag := false }

/-! ## Tract (spec section 3) -/

/-- Two-digit zero-padded section string. -/
def pad2 (n : Nat) : String := if n < 10 then "0" ++ toString n else toString n

/-- Modelled from the spec: the Tract record, the atom of the output. -/
structure Tract where
  trs : String := "___z___z__"
  desc : String := ""
  pp_desc : String := ""
  lots : List String := []
  qqs : List String := []
  lots_qqs : List String := []
  w_flags : List String := []
  e_flags : List String := []
  desc_is_flawed : Bool := false
  orig_index : Nat := 0
deriving DecidableEq, Repr, Inhabited

/-- Modelled from the spec: parsing a tract description block into lots and
aliquots, expanding aliquots at the configured depth; populates lots, qqs
and their concatenation lots_qqs, appending tokenizer warning flags. -/
def Tract.parseQQ (cfg : Config) (t : Tract) : Tract :=
  let ds := t.desc.toList
  let ws := (wordsOf ds).map (fixWord cfg)
  let st := ws.foldl (tractStep cfg.clean_qq) {}
  let p := resolveDepths cfg
  let lots := st.lots.reverse.map (fun n => "L" ++ toString n)
  let qqs := (concatMap (expandChain p.1 p.2 cfg.break_halves) st.chains).map Chain.toQQ
  { t with
    pp_desc := ⟨preprocessText cfg ds⟩
    lots := lots
    qqs := qqs
    lots_qqs := lots ++ qqs
    w_flags := t.w_flags ++ st.flags }

/-- Direct construction of a Tract from a description block and a Twp/Rge/Sec
string, parsed into lots and aliquots when parse_qq is set. -/
def Tract.construct (desc : String) (trs : String) (cfg : Config) : Tract :=
  let t : Tract := { trs := trs, desc := desc }
  if cfg.parse_qq then t.parseQQ cfg else t

/-! ## Layout scan and tract extraction (spec sections 4.C, 4.E) -/

/-- Whether a word introduces a section (or multi-section) token. -/
def isSecKw (w : List Char) : Bool :=
  w == kw "Sec" || w == kw "Sec." || w == kw "Secs" || w == kw "Secs." ||
    w == kw "Section" || w == kw "Sections" || w == kw "§" || w == kw "§§"

/-- Whether a section-number word carries the trailing colon signal. -/
def hasColon (w : List Char) : Bool := w.getLast? = some ':'

/-- Standard-format Twp/Rge start of a completed token, or the error
sentinel pair when no Twp/Rge is on hand. -/
def trOf : Option TRTok → String
  | some t => ⟨t.td ++ t.tns.lo :: t.rd ++ [t.rew.lo]⟩
  | none => "XXXzXXXz"

/-- Extraction state machine mode. -/
inductive ExMode
  | idle
  | insec (secs : List Nat) (rflag : Bool)
  | indesc (secs : List Nat) (dws : List (List Char))
deriving DecidableEq, Repr

/-- One committed (Twp/Rge, section list, description block) group. -/
structure Group where
  tr : Option TRTok
  secs : List Nat
  dws : List (List Char)
deriving DecidableEq, Repr

/-- Extraction fold state. -/
structure ExSt where
  tr : Option TRTok := none
  sawTR : Bool := false
  sawSec : Bool := false
  mode : ExMode := .idle
  flags : List String := []
  groups : List Group := []

/-- Commit the group being collected, if any. -/
def closeMode (st : ExSt) : ExSt :=
  match st.mode with
  | .idle => st
  | .insec secs _ =>
    { st with groups := st.groups ++ [⟨st.tr, secs.reverse, []⟩], mode := .idle }
  | .indesc secs dws =>
    { st with groups := st.groups ++ [⟨st.tr, secs.reverse, dws.reverse⟩], mode := .idle }

/-- Modelled from the spec: one transition of the tract-extraction state
machine, driven by the next word.  A Twp/Rge match commits the pending
group and becomes current; a section keyword opens section collection; a
colon-terminated section number opens the description block. -/
def exStep (cfg : Config) (st : ExSt) (w : List Char) : ExSt :=
  match parseTRw w with
  | some t =>
    let st := closeMode st
    { st with tr := some (completeTR cfg t), sawTR := true }
  | none =>
    if isSecKw w then
      { closeMode st with mode := .insec [] false, sawSec := true }
    else
      match st.mode with
      | .idle => st
      | .insec secs rflag =>
        let w1 := stripPunct w
        if isNatWord w1 then
          let p := pushNum secs (toNatW w1) rflag
          let st := { st with
            flags := st.flags ++ (if p.2 then ["nonSequen_sec"] else []) }
          if hasColon w then { st with mode := .indesc p.1 [] }
          else { st with mode := .insec p.1 false }
        else if isDashW w1 then { st with mode := .insec secs true }
        else if isAndW w1 then { st with mode := .insec secs false }
        else
          { st with
            mode := .indesc secs [w]
            flags := st.flags ++ ["pulled_sec_without_colon"] }
      | .indesc secs dws => { st with mode := .indesc secs (w :: dws) }

/-- Emit one Tract per listed section of a committed group, all sharing the
group's description block, flagged multiSec_found when the list has more
than one section. -/
def emitGroup (g : Group) : List Tract :=
  g.secs.map (fun sec =>
    { trs := trOf g.tr ++ pad2 sec
      desc := ⟨renderWords g.dws⟩
      w_flags := if 2 ≤ g.secs.length then ["multiSec_found"] else [] })

/-! ## PLSSDesc (spec sections 3, 4.E, 7) -/

/-- Assign creation-order indices to a run of tracts. -/
def withIdx : Nat → List Tract → List Tract
  | _, [] => []
  | i, t :: ts => { t with orig_index := i } :: withIdx (i + 1) ts

/-- Modelled from the spec: the parsed Description record. -/
structure PLSSDesc where
  orig_desc : String
  pp_desc : String
  tracts : List Tract
  w_flags : List String
  e_flags : List String
  desc_is_flawed : Bool
deriving DecidableEq, Repr

/-- Run the extraction state machine over the preprocessed words of a full
description. -/
def scanDesc (cfg : Config) (s : String) : ExSt :=
  closeMode (((wordsOf s.toList).map (fixWord cfg)).foldl (exStep cfg) {})

/-- Error flags of a parse: the structural failure conditions no Twp/Rge
anywhere, no section anywhere, and no text. -/
def descEFlags (cfg : Config) (s : String) : List String :=
  (if (scanDesc cfg s).sawTR then [] else ["no_tr"]) ++
    (if (scanDesc cfg s).sawSec then [] else ["no_section"]) ++
    (if s.toList.isEmpty then ["no_text"] else [])

/-- On a flawed parse every tract keeps the entire unparsed text as its
description block. -/
def rewriteDesc (flawed : Bool) (s : String) (l : List Tract) : List Tract :=
  if flawed then l.map (fun t => { t with desc := s }) else l

/-- When no tract could be produced, a single placeholder tract holding the
whole text is produced instead. -/
def orPlaceholder (s : String) (l : List Tract) : List Tract :=
  if l.isEmpty then [{ trs := "XXXzXXXzXX", desc := s }] else l

/-- The extracted tracts of a description before flags are copied down. -/
def preTracts (cfg : Config) (s : String) : List Tract :=
  orPlaceholder s
    (rewriteDesc (!(descEFlags cfg s).isEmpty) s
      (concatMap emitGroup (scanDesc cfg s).groups))

/-- Copy the description-level flags down to every child tract. -/
def flagAll (wf ef : List String) (flawed : Bool) (l : List Tract) : List Tract :=
  l.map (fun t =>
    { t with
      w_flags := t.w_flags ++ wf
      e_flags := ef
      desc_is_flawed := flawed })

/-- Parse each tract into lots and aliquots when parse_qq is set. -/
def applyQQ (cfg : Config) (l : List Tract) : List Tract :=
  if cfg.parse_qq then l.map (Tract.parseQQ cfg) else l

/-- Modelled from the spec: the full parse of a PLSS description.  The text
is preprocessed, scanned by the extraction state machine, and the groups
expand into tracts; structural failures (no Twp/Rge, no section, no text)
are recorded as error flags, set desc_is_flawed, and leave a tract whose
description is the entire unparsed text; the parser never fails to return
a populated structure. -/
def PLSSDesc.parse (s : String) (cfg : Config) : PLSSDesc :=
  { orig_desc := s
    pp_desc := ⟨preprocessText cfg s.toList⟩
    tracts := withIdx 0
      (applyQQ cfg
        (flagAll (preprocessFlags cfg s.toList ++ (scanDesc cfg s).flags)
          (descEFlags cfg s) (!(descEFlags cfg s).isEmpty) (preTracts cfg s)))
    w_flags := preprocessFlags cfg s.toList ++ (scanDesc cfg s).flags
    e_flags := descEFlags cfg s
    desc_is_flawed := !(descEFlags cfg s).isEmpty }

/-! ## TRS component breakdown (guide on TRS, Tract attribute table) -/

/-- The fully populated component record a TRS object exposes; every
derived attribute is a function of the trs string alone. -/
structure TRSComp where
  trs : String
  twp : String
  twp_num : Option Nat
  twp_ns : Option Char
  twp_undef : Bool
  rge : String
  rge_num : Option Nat
  rge_ew : Option Char
  rge_undef : Bool
  sec : String
  sec_num : Option Nat
  sec_undef : Bool
  twprge : String
deriving DecidableEq, Repr

/-- Parsed pieces of one Twp or Rge component: its text, number, direction
and undefined bit. -/
structure CompBits where
  txt : List Char
  num : Option Nat
  dir : Option Char
  undef : Bool
deriving DecidableEq, Repr

/-- Parse the Twp (or, with e/w letters, the Rge) component off the front
of a trs string: sentinels ___z and XXXz, or one to three digits plus the
direction letter. -/
def parseComp (dirs : List Char) (cs : List Char) : Option (CompBits × List Char) :=
  if cs.take 4 = kw "___z" then some (⟨kw "___z", none, none, true⟩, cs.drop 4)
  else if cs.take 4 = kw "XXXz" then some (⟨kw "XXXz", none, none, false⟩, cs.drop 4)
  else
    match takeNum cs with
    | none => none
    | some (d, r) =>
      if 3 < d.length then none
      else
        match r with
        | c :: rest =>
          if dirs.contains c then
            some (⟨d ++ [c], some (toNatW d), some c, false⟩, rest)
          else none
        | [] => none

/-- Parse the section component, which must be the whole remaining text:
sentinels __ and XX, or exactly two digits. -/
def parseSec (cs : List Char) : Option (List Char × Option Nat × Bool) :=
  if cs = kw "__" then some (kw "__", none, true)
  else if cs = kw "XX" then some (kw "XX", none, false)
  else if cs.length = 2 && cs.all Char.isDigit then some (cs, some (toNatW cs), false)
  else none

/-- The all-error component record produced when a trs string cannot be
deciphered. -/
def errComp : TRSComp :=
  { trs := "XXXzXXXzXX"
    twp := "XXXz", twp_num := none, twp_ns := none, twp_undef := false
    rge := "XXXz", rge_num := none, rge_ew := none, rge_undef := false
    sec := "XX", sec_num := none, sec_undef := false
    twprge := "XXXzXXXz" }

/-- Modelled from the spec: setting the trs of a TRS or Tract object
repopulates every derived component attribute from the new value; an
undecipherable value sets the error sentinel throughout. -/
def TRS.set (s : String) : TRSComp :=
  match parseComp (kw "ns") s.toList with
  | some (t, rest) =>
    match parseComp (kw "ew") rest with
    | some (r, rest2) =>
      match parseSec rest2 with
      | some (sc, sn, su) =>
        { trs := ⟨t.txt ++ r.txt ++ sc⟩
          twp := ⟨t.txt⟩, twp_num := t.num, twp_ns := t.dir, twp_undef := t.undef
          rge := ⟨r.txt⟩, rge_num := r.num, rge_ew := r.dir, rge_undef := r.undef
          sec := ⟨sc⟩, sec_num := sn, sec_undef := su
          twprge := ⟨t.txt ++ r.txt⟩ }
      | none => errComp
    | none => errComp
  | none => errComp

/-- Modelled from the spec: the set_twprgesec method, which compiles the
uncompiled components into a standard trs string and assigns it. -/
def TRS.set_twprgesec (twp rge sec : Nat) (ns : NSDir) (ew : EWDir) : TRSComp :=
  TRS.set (toString twp ++ ⟨[ns.lo]⟩ ++ toString rge ++ ⟨[ew.lo]⟩ ++ pad2 sec)

/-! ## General lemmas -/

theorem mem_concatMap {f : α → List β} {xs : List α} {b : β} :
    b ∈ concatMap f xs ↔ ∃ a ∈ xs, b ∈ f a := by
  induction xs with
  | nil => simp [concatMap]
  | cons x xs ih => simp [concatMap, List.mem_append, ih]

theorem concatMap_pure (xs : List α) : concatMap (fun a => [a]) xs = xs := by
  induction xs with
  | nil => rfl
  | cons x xs ih => simp [concatMap, ih]

theorem length_concatMap (f : α → List β) (xs : List α) :
    (concatMap f xs).length = (xs.map (fun a => (f a).length)).sum := by
  induction xs with
  | nil => rfl
  | cons x xs ih => simp [concatMap, ih]

theorem foldl_congr_mem {f g : σ → α → σ} {l : List α}
    (h : ∀ s, ∀ a ∈ l, f s a = g s a) : ∀ s, l.foldl f s = l.foldl g s := by
  induction l with
  | nil => intro s; rfl
  | cons x xs ih =>
    intro s
    simp only [List.foldl_cons]
    rw [h s x (by simp)]
    exact ih (fun s a ha => h s a (by simp [ha])) _

/-! ## Depth bounds of the aliquot expander (claim C7) -/

theorem expandMinGo_depth (m : Nat) :
    ∀ (fuel : Nat) (c : Chain), 2 * m ≤ c.depth2 + fuel →
      ∀ l ∈ expandMinGo m fuel c, 2 * m ≤ l.depth2 := by
  intro fuel
  induction fuel with
  | zero =>
    intro c hp l hl
    unfold expandMinGo at hl
    split at hl
    · next hg =>
      simp only [List.mem_singleton] at hl
      exact hl ▸ hg
    · next hg =>
      simp only [List.mem_singleton] at hl
      subst hl
      omega
  | succ fuel ih =>
    intro c hp l hl
    unfold expandMinGo at hl
    split at hl
    · simp_all
    · next hguard =>
      obtain ⟨hs, qs⟩ := c
      cases hs with
      | cons h0 hs =>
        simp only at hl
        rcases List.mem_append.mp hl with hm | hm <;>
          exact ih _ (by simp [Chain.depth2] at hp hguard ⊢; omega) l hm
      | nil =>
        simp only at hl
        obtain ⟨q, _, hm⟩ := mem_concatMap.mp hl
        exact ih _ (by simp [Chain.depth2] at hp hguard ⊢; omega) l hm

theorem expandMin_depth (m : Nat) (c : Chain) :
    ∀ l ∈ expandMin m c, 2 * m ≤ l.depth2 :=
  expandMinGo_depth m (2 * m) c (by omega)

theorem truncMax_depth (capM : Nat) (c : Chain) :
    (truncMax (some capM) c).depth2 = min c.depth2 (2 * capM) := by
  show (if c.depth2 ≤ 2 * capM then c
    else if capM ≤ c.qs.length then ⟨[], c.qs.drop (c.qs.length - capM)⟩
    else (⟨c.halves.take (2 * capM - 2 * c.qs.length), c.qs⟩ : Chain)).depth2 =
      min c.depth2 (2 * capM)
  by_cases hle : c.depth2 ≤ 2 * capM
  · rw [if_pos hle, Nat.min_eq_left hle]
  · rw [if_neg hle, Nat.min_eq_right (by omega)]
    by_cases hq : capM ≤ c.qs.length
    · rw [if_pos hq]
      simp only [Chain.depth2, List.length_nil, List.length_drop]
      omega
    · rw [if_neg hq]
      simp only [Chain.depth2] at hle ⊢
      simp only [List.length_take]
      omega

/-- Claim C7: for every aliquot token stream and every configuration with
qq_depth_min = m, qq_depth_max = M and break_halves off, every leaf of the
expansion has depth between m and M, where depth counts nested
quarter-steps and a retained half counts as half a step (measured here in
half-steps, so the bounds are 2m and 2M). -/
theorem claim_c7_depth_bounds (m capM : Nat) (hmM : m ≤ capM) (c : Chain) :
    ∀ l ∈ expandChain m (some capM) false c,
      2 * m ≤ l.depth2 ∧ l.depth2 ≤ 2 * capM := by
  intro l hl
  unfold expandChain at hl
  simp only [Bool.false_eq_true, if_false] at hl
  rw [concatMap_pure] at hl
  obtain ⟨l1, hl1, rfl⟩ := List.mem_map.mp hl
  have h1 := expandMin_depth m c l1 hl1
  rw [truncMax_depth]
  constructor
  · exact le_min h1 (by omega)
  · exact min_le_right _ _

/-- Witness for C7 at a concrete stream: the half E2 over NENW expanded
with min and max depth 2 truncates to NENW, which is inside the bounds. -/
theorem claim_c7_depth_bounds_witness :
    2 * 2 ≤ (Chain.mk [] [.NE, .NW]).depth2 ∧
      (Chain.mk [] [.NE, .NW]).depth2 ≤ 2 * 2 :=
  claim_c7_depth_bounds 2 2 (by decide) ⟨[.E2], [.NE, .NW]⟩
    ⟨[], [.NE, .NW]⟩ (by decide)

/-- Claim C5: parsing T154N-R97W Sec 14: NE with clean_qq off yields one
tract with no aliquots (the bare NE is rejected); with clean_qq on, the
same input yields the four quarter-quarters of the NE quarter. -/
theorem claim_c5_clean_qq :
    (PLSSDesc.parse "T154N-R97W Sec 14: NE" { parse_qq := true }).tracts.map
        (fun t => (t.trs, t.qqs)) = [("154n97w14", [])] ∧
      (PLSSDesc.parse "T154N-R97W Sec 14: NE"
          { parse_qq := true, clean_qq := true }).tracts.map
        (fun t => (t.trs, t.qqs)) =
        [("154n97w14", ["NENE", "NWNE", "SENE", "SWNE"])] := by
  constructor <;> decide

/-- Claim C6: SE/4NW/4, E/2NE/4NW/4 expands to SENW and NENW at exact depth
2 (the half is coalesced into its enclosing quarter) and to six pieces at
minimum depth 3; and setting qq_depth overrides both qq_depth_min and
qq_depth_max to that value. -/
theorem claim_c6_qq_depth :
    (Tract.construct "SE/4NW/4, E/2NE/4NW/4" "154n97w14"
        { parse_qq := true, qq_depth := some 2 }).qqs = ["SENW", "NENW"] ∧
      (Tract.construct "SE/4NW/4, E/2NE/4NW/4" "154n97w14"
          { parse_qq := true, qq_depth_min := 3 }).qqs =
        ["NESENW", "NWSENW", "SESENW", "SWSENW", "NENENW", "SENENW"] ∧
      ∀ (cfg : Config) (n : Nat),
        resolveDepths { cfg with qq_depth := some n } = (n, some n) := by
  refine ⟨by decide, by decide, ?_⟩
  intro cfg n
  rfl

/-! ## Structural facts about the parse pipeline -/

theorem mem_withIdx {t : Tract} :
    ∀ {n : Nat} {l : List Tract}, t ∈ withIdx n l →
      ∃ t0 ∈ l, t.trs = t0.trs ∧ t.desc = t0.desc ∧ t.lots = t0.lots ∧
        t.qqs = t0.qqs ∧ t.lots_qqs = t0.lots_qqs ∧
        t.e_flags = t0.e_flags ∧ t.desc_is_flawed = t0.desc_is_flawed := by
  intro n l
  induction l generalizing n with
  | nil => intro h; simp [withIdx] at h
  | cons x xs ih =>
    intro h
    rcases h with _ | ⟨_, h⟩
    · exact ⟨x, by simp, rfl, rfl, rfl, rfl, rfl, rfl, rfl⟩
    · obtain ⟨t0, ht0, he⟩ := ih h
      exact ⟨t0, by simp [ht0], he⟩

theorem length_withIdx : ∀ (n : Nat) (l : List Tract),
    (withIdx n l).length = l.length := by
  intro n l
  induction l generalizing n with
  | nil => rfl
  | cons x xs ih => simp [withIdx, ih]

theorem emitGroup_length (g : Group) : (emitGroup g).length = g.secs.length := by
  simp [emitGroup]

theorem mem_emitGroup {t : Tract} {g : Group} (h : t ∈ emitGroup g) :
    ∃ sec ∈ g.secs,
      t = { trs := trOf g.tr ++ pad2 sec
            desc := ⟨renderWords g.dws⟩
            w_flags := if 2 ≤ g.secs.length then ["multiSec_found"] else [] } := by
  obtain ⟨sec, hs, rfl⟩ := List.mem_map.mp h
  exact ⟨sec, hs, rfl⟩

theorem emitGroup_map_trs (g : Group) :
    (emitGroup g).map Tract.trs = g.secs.map (fun n => trOf g.tr ++ pad2 n) := by
  simp [emitGroup]

/-- Tract.parseQQ computes lots and qqs and stores their concatenation,
leaving identification fields unchanged. -/
theorem parseQQ_fields (cfg : Config) (t : Tract) :
    (t.parseQQ cfg).lots_qqs = (t.parseQQ cfg).lots ++ (t.parseQQ cfg).qqs ∧
      (t.parseQQ cfg).trs = t.trs ∧ (t.parseQQ cfg).desc = t.desc ∧
      (t.parseQQ cfg).e_flags = t.e_flags ∧
      (t.parseQQ cfg).desc_is_flawed = t.desc_is_flawed :=
  ⟨rfl, rfl, rfl, rfl, rfl⟩

theorem preTracts_empty_lists {s : String} {cfg : Config} :
    ∀ t ∈ preTracts cfg s, t.lots = [] ∧ t.qqs = [] ∧ t.lots_qqs = [] := by
  intro t ht
  unfold preTracts orPlaceholder at ht
  split at ht
  · simp only [List.mem_singleton] at ht
    subst ht
    exact ⟨rfl, rfl, rfl⟩
  · unfold rewriteDesc at ht
    split at ht
    · obtain ⟨t0, ht0, rfl⟩ := List.mem_map.mp ht
      obtain ⟨g, _, hg⟩ := mem_concatMap.mp ht0
      obtain ⟨sec, _, rfl⟩ := mem_emitGroup hg
      exact ⟨rfl, rfl, rfl⟩
    · obtain ⟨g, _, hg⟩ := mem_concatMap.mp ht
      obtain ⟨sec, _, rfl⟩ := mem_emitGroup hg
      exact ⟨rfl, rfl, rfl⟩

theorem preTracts_desc_flawed {s : String} {cfg : Config}
    (hf : (!(descEFlags cfg s).isEmpty) = true) :
    ∀ t ∈ preTracts cfg s, t.desc = s := by
  intro t ht
  unfold preTracts orPlaceholder at ht
  split at ht
  · simp only [List.mem_singleton] at ht
    subst ht
    rfl
  · unfold rewriteDesc at ht
    rw [if_pos hf] at ht
    obtain ⟨t0, ht0, rfl⟩ := List.mem_map.mp ht
    rfl

theorem preTracts_ne_nil {s : String} {cfg : Config} : preTracts cfg s ≠ [] := by
  unfold preTracts orPlaceholder
  split
  · simp
  · next h =>
    simp only [List.isEmpty_iff] at h
    exact h

theorem mem_parse_stages {s : String} {cfg : Config} {t : Tract}
    (ht : t ∈ (PLSSDesc.parse s cfg).tracts) :
    ∃ t0 ∈ preTracts cfg s,
      t.trs = t0.trs ∧ t.desc = t0.desc ∧
      t.e_flags = descEFlags cfg s ∧
      t.desc_is_flawed = (!(descEFlags cfg s).isEmpty) ∧
      t.lots_qqs = t.lots ++ t.qqs := by
  have hP := @preTracts_empty_lists s cfg
  obtain ⟨t1, ht1, e1, e2, e3, e4, e5, e6, e7⟩ := mem_withIdx ht
  unfold applyQQ at ht1
  split at ht1
  · obtain ⟨t2, ht2, rfl⟩ := List.mem_map.mp ht1
    unfold flagAll at ht2
    obtain ⟨t3, ht3, rfl⟩ := List.mem_map.mp ht2
    exact ⟨t3, ht3, e1, e2, e6, e7, by
      rw [e5, e3, e4]; exact (parseQQ_fields cfg _).1⟩
  · unfold flagAll at ht1
    obtain ⟨t3, ht3, rfl⟩ := List.mem_map.mp ht1
    obtain ⟨hl, hq, hlq⟩ := hP t3 ht3
    refine ⟨t3, ht3, e1, e2, e6, e7, ?_⟩
    rw [e5, e3, e4]
    show t3.lots_qqs = t3.lots ++ t3.qqs
    rw [hl, hq, hlq]
    rfl

theorem parse_tracts_length (s : String) (cfg : Config) :
    (PLSSDesc.parse s cfg).tracts.length = (preTracts cfg s).length := by
  show (withIdx 0 (applyQQ cfg (flagAll _ _ _ _))).length = _
  rw [length_withIdx]
  unfold applyQQ flagAll
  split <;> simp

theorem parse_tracts_ne_nil (s : String) (cfg : Config) :
    (PLSSDesc.parse s cfg).tracts ≠ [] := by
  intro hc
  have hl := parse_tracts_length s cfg
  rw [hc] at hl
  exact preTracts_ne_nil (List.length_eq_zero.mp hl.symm)

/-- Claim C3: for every input text and configuration the parse is a total
function that returns a populated structure: the original text is kept, at
least one tract is produced, an empty input is recorded only as the
no_text error flag, desc_is_flawed is exactly the presence of an error
flag, and every tract carries the description's flags. -/
theorem claim_c3_never_raises (s : String) (cfg : Config) :
    (PLSSDesc.parse s cfg).orig_desc = s ∧
      (PLSSDesc.parse s cfg).tracts ≠ [] ∧
      (s = "" → "no_text" ∈ (PLSSDesc.parse s cfg).e_flags) ∧
      ((PLSSDesc.parse s cfg).desc_is_flawed =
        !(PLSSDesc.parse s cfg).e_flags.isEmpty) ∧
      ∀ t ∈ (PLSSDesc.parse s cfg).tracts,
        t.e_flags = (PLSSDesc.parse s cfg).e_flags ∧
        t.desc_is_flawed = (PLSSDesc.parse s cfg).desc_is_flawed := by
  refine ⟨rfl, parse_tracts_ne_nil s cfg, ?_, rfl, ?_⟩
  · intro he
    subst he
    show "no_text" ∈ descEFlags cfg ""
    unfold descEFlags
    simp
  · intro t ht
    obtain ⟨t0, _, _, _, he, hf, _⟩ := mem_parse_stages ht
    exact ⟨he, hf⟩

/-- Witness for C3 at the empty input with the default configuration. -/
theorem claim_c3_never_raises_witness :
    (PLSSDesc.parse "" {}).tracts ≠ [] ∧
      "no_text" ∈ (PLSSDesc.parse "" {}).e_flags :=
  ⟨(claim_c3_never_raises "" {}).2.1, (claim_c3_never_raises "" {}).2.2.1 rfl⟩

/-- Claim C9: for every parsed Tract, whether produced by a full parse of a
description or by direct construction, the lots_qqs attribute is the
concatenation of the lots list and the qqs list. -/
theorem claim_c9_lots_qqs_concat :
    (∀ (s : String) (cfg : Config), ∀ t ∈ (PLSSDesc.parse s cfg).tracts,
        t.lots_qqs = t.lots ++ t.qqs) ∧
      ∀ (d trs : String) (cfg : Config),
        (Tract.construct d trs cfg).lots_qqs =
          (Tract.construct d trs cfg).lots ++ (Tract.construct d trs cfg).qqs := by
  constructor
  · intro s cfg t ht
    obtain ⟨t0, _, _, _, _, _, hc⟩ := mem_parse_stages ht
    exact hc
  · intro d trs cfg
    unfold Tract.construct
    split
    · exact (parseQQ_fields cfg _).1
    · rfl

/-- Witness for C9 on the documented lots example. -/
theorem claim_c9_lots_qqs_concat_witness :
    (Tract.construct "Lots 1 - 3, S/2NE/4" "154n97w01"
        { parse_qq := true }).lots_qqs =
      (Tract.construct "Lots 1 - 3, S/2NE/4" "154n97w01"
          { parse_qq := true }).lots ++
        (Tract.construct "Lots 1 - 3, S/2NE/4" "154n97w01"
            { parse_qq := true }).qqs :=
  claim_c9_lots_qqs_concat.2 "Lots 1 - 3, S/2NE/4" "154n97w01" { parse_qq := true }

/-- Claim C1: a matched multi-section enumeration or range produces exactly
one Tract per listed section, all sharing the same description block and
each carrying the multiSec_found flag; in particular parsing Sections
14 - 17: X produces exactly four tracts with equal descriptions and
sequential section numbers 14 through 17. -/
theorem claim_c1_multisec_expansion :
    (∀ g : Group,
      (emitGroup g).length = g.secs.length ∧
        (emitGroup g).map Tract.trs = g.secs.map (fun n => trOf g.tr ++ pad2 n) ∧
        ∀ t ∈ emitGroup g,
          t.desc = (⟨renderWords g.dws⟩ : String) ∧
            (2 ≤ g.secs.length → "multiSec_found" ∈ t.w_flags)) ∧
      (PLSSDesc.parse "Sections 14 – 17: X" {}).tracts.length = 4 ∧
      (PLSSDesc.parse "Sections 14 – 17: X" {}).tracts.map
          (fun t => (TRS.set t.trs).sec_num) =
        [some 14, some 15, some 16, some 17] ∧
      (∀ t1 ∈ (PLSSDesc.parse "Sections 14 – 17: X" {}).tracts,
        ∀ t2 ∈ (PLSSDesc.parse "Sections 14 – 17: X" {}).tracts,
          t1.desc = t2.desc) ∧
      ∀ t ∈ (PLSSDesc.parse "Sections 14 – 17: X" {}).tracts,
        "multiSec_found" ∈ t.w_flags := by
  refine ⟨?_, by decide, by decide, by decide, by decide⟩
  intro g
  refine ⟨emitGroup_length g, emitGroup_map_trs g, ?_⟩
  intro t ht
  obtain ⟨sec, hs, rfl⟩ := mem_emitGroup ht
  refine ⟨rfl, ?_⟩
  intro h2
  show "multiSec_found" ∈ (if 2 ≤ g.secs.length then ["multiSec_found"] else [])
  rw [if_pos h2]
  simp

/-- Witness for C1 on a two-section group. -/
theorem claim_c1_multisec_expansion_witness :
    "multiSec_found" ∈
      (PLSSDesc.parse "Sections 14 – 17: X" {}).tracts.head!.w_flags := by
  have h := claim_c1_multisec_expansion.2.2.2.2
    (PLSSDesc.parse "Sections 14 – 17: X" {}).tracts.head! (by decide)
  exact h

/-! ## The no-Twp/Rge invariant of the extraction machine (claim C2) -/

theorem closeMode_track (st : ExSt) :
    (closeMode st).sawTR = st.sawTR ∧ (closeMode st).tr = st.tr ∧
      ∀ g ∈ (closeMode st).groups, g ∈ st.groups ∨ g.tr = st.tr := by
  unfold closeMode
  split
  · exact ⟨rfl, rfl, fun g hg => Or.inl hg⟩
  · refine ⟨rfl, rfl, fun g hg => ?_⟩
    rcases List.mem_append.mp hg with h | h
    · exact Or.inl h
    · simp only [List.mem_singleton] at h
      subst h
      exact Or.inr rfl
  · refine ⟨rfl, rfl, fun g hg => ?_⟩
    rcases List.mem_append.mp hg with h | h
    · exact Or.inl h
    · simp only [List.mem_singleton] at h
      subst h
      exact Or.inr rfl

theorem exStep_track (cfg : Config) (st : ExSt) (w : List Char) :
    (exStep cfg st w).sawTR = true ∨
      ((exStep cfg st w).sawTR = st.sawTR ∧ (exStep cfg st w).tr = st.tr ∧
        ∀ g ∈ (exStep cfg st w).groups, g ∈ st.groups ∨ g.tr = st.tr) := by
  cases hp : parseTRw w with
  | some t => left; simp only [exStep, hp]
  | none =>
    right
    simp only [exStep, hp]
    by_cases hk : isSecKw w = true
    · rw [if_pos hk]
      exact (closeMode_track st)
    · rw [if_neg hk]
      cases hm : st.mode with
      | idle => exact ⟨rfl, rfl, fun g hg => Or.inl hg⟩
      | insec secs rflag =>
        simp only
        split_ifs <;> exact ⟨rfl, rfl, fun g hg => Or.inl hg⟩
      | indesc secs dws => exact ⟨rfl, rfl, fun g hg => Or.inl hg⟩

theorem foldl_noTR (cfg : Config) (ws : List (List Char)) :
    ∀ st : ExSt,
      (st.sawTR = false → st.tr = none ∧ ∀ g ∈ st.groups, g.tr = none) →
      ((ws.foldl (exStep cfg) st).sawTR = false →
        (ws.foldl (exStep cfg) st).tr = none ∧
          ∀ g ∈ (ws.foldl (exStep cfg) st).groups, g.tr = none) := by
  induction ws with
  | nil => intro st h; exact h
  | cons w ws ih =>
    intro st h
    apply ih
    intro hTR
    rcases exStep_track cfg st w with h1 | ⟨h1, h2, h3⟩
    · rw [h1] at hTR; cases hTR
    · rw [h1] at hTR
      obtain ⟨htr, hgs⟩ := h hTR
      refine ⟨h2.trans htr, ?_⟩
      intro g hg
      rcases h3 g hg with hg2 | hg2
      · exact hgs g hg2
      · exact hg2.trans htr

theorem scanDesc_noTR (cfg : Config) (s : String)
    (h : (scanDesc cfg s).sawTR = false) :
    ∀ g ∈ (scanDesc cfg s).groups, g.tr = none := by
  unfold scanDesc at *
  have hc := closeMode_track
    (((wordsOf s.toList).map (fixWord cfg)).foldl (exStep cfg) {})
  have hS : (((wordsOf s.toList).map (fixWord cfg)).foldl (exStep cfg)
      {}).sawTR = false := by rw [← hc.1]; exact h
  have hf := foldl_noTR cfg ((wordsOf s.toList).map (fixWord cfg)) {}
    (fun _ => ⟨rfl, by intro g hg; simp at hg⟩) hS
  intro g hg
  rcases hc.2.2 g hg with h1 | h1
  · exact hf.2 g h1
  · exact h1.trans hf.1

/-! ## The error sentinel components (claim C2) -/

theorem parseComp_XXXz (dirs rest : List Char) :
    parseComp dirs (kw "XXXz" ++ rest) =
      some (⟨kw "XXXz", none, none, false⟩, rest) := by
  unfold parseComp
  rw [if_neg, if_pos]
  · rw [show (4 : Nat) = (kw "XXXz").length from rfl, List.drop_left]
  · rw [show (4 : Nat) = (kw "XXXz").length from rfl, List.take_left]
  · rw [show (4 : Nat) = (kw "XXXz").length from rfl, List.take_left]
    decide

theorem TRS_set_errStart (rest : List Char) :
    (TRS.set ⟨kw "XXXzXXXz" ++ rest⟩).twp = "XXXz" ∧
      (TRS.set ⟨kw "XXXzXXXz" ++ rest⟩).rge = "XXXz" := by
  unfold TRS.set
  have he : (String.mk (kw "XXXzXXXz" ++ rest)).toList =
      kw "XXXz" ++ (kw "XXXz" ++ rest) := by
    show kw "XXXzXXXz" ++ rest = _
    rw [show kw "XXXzXXXz" = kw "XXXz" ++ kw "XXXz" from by decide,
      List.append_assoc]
  rw [he]
  simp only [parseComp_XXXz]
  cases hps : parseSec rest with
  | none => exact ⟨rfl, rfl⟩
  | some v => exact ⟨rfl, rfl⟩

theorem mem_descEFlags {cfg : Config} {s : String} (f : String) :
    f ∈ descEFlags cfg s ↔
      ((scanDesc cfg s).sawTR = false ∧ f = "no_tr") ∨
        ((scanDesc cfg s).sawSec = false ∧ f = "no_section") ∨
        (s.toList.isEmpty = true ∧ f = "no_text") := by
  unfold descEFlags
  cases h1 : (scanDesc cfg s).sawTR <;>
    cases h2 : (scanDesc cfg s).sawSec <;>
    cases h3 : s.toList.isEmpty <;> simp

theorem no_tr_sawTR {cfg : Config} {s : String}
    (hmem : "no_tr" ∈ descEFlags cfg s) : (scanDesc cfg s).sawTR = false := by
  rcases (mem_descEFlags "no_tr").mp hmem with ⟨h, _⟩ | ⟨_, h⟩ | ⟨_, h⟩
  · exact h
  · exact absurd h (by decide)
  · exact absurd h (by decide)

theorem preTracts_trs_noTR {cfg : Config} {s : String}
    (hTR : (scanDesc cfg s).sawTR = false) :
    ∀ t ∈ preTracts cfg s,
      (TRS.set t.trs).twp = "XXXz" ∧ (TRS.set t.trs).rge = "XXXz" := by
  have herr : ∀ (x : String),
      (TRS.set ("XXXzXXXz" ++ x)).twp = "XXXz" ∧
        (TRS.set ("XXXzXXXz" ++ x)).rge = "XXXz" := by
    intro x
    exact TRS_set_errStart x.toList
  have hemit : ∀ t0 ∈ concatMap emitGroup (scanDesc cfg s).groups,
      (TRS.set t0.trs).twp = "XXXz" ∧ (TRS.set t0.trs).rge = "XXXz" := by
    intro t0 ht0
    obtain ⟨g, hgmem, hg⟩ := mem_concatMap.mp ht0
    obtain ⟨sec, _, rfl⟩ := mem_emitGroup hg
    have hgtr := scanDesc_noTR cfg s hTR g hgmem
    rw [hgtr]
    exact herr (pad2 sec)
  intro t ht
  unfold preTracts orPlaceholder at ht
  split at ht
  · simp only [List.mem_singleton] at ht
    subst ht
    constructor
    · show (TRS.set "XXXzXXXzXX").twp = "XXXz"
      decide
    · show (TRS.set "XXXzXXXzXX").rge = "XXXz"
      decide
  · unfold rewriteDesc at ht
    split at ht
    · obtain ⟨t0, ht0, rfl⟩ := List.mem_map.mp ht
      exact hemit t0 ht0
    · exact hemit t ht

/-- Claim C2: an input whose parse hits the fatal no-Twp/Rge error still
produces tracts: every one keeps the entire unparsed text as its desc,
has desc_is_flawed set, carries the no_tr error flag, and its trs opens
with the error sentinels XXXzXXXz (the section part keeps whatever was
recognized); the documented example produces trs XXXzXXXz14. -/
theorem claim_c2_fatal_error_tract :
    (∀ (s : String) (cfg : Config),
      "no_tr" ∈ (PLSSDesc.parse s cfg).e_flags →
        (PLSSDesc.parse s cfg).desc_is_flawed = true ∧
          (PLSSDesc.parse s cfg).tracts ≠ [] ∧
          ∀ t ∈ (PLSSDesc.parse s cfg).tracts,
            t.desc = s ∧ t.desc_is_flawed = true ∧ "no_tr" ∈ t.e_flags ∧
              (TRS.set t.trs).twp = "XXXz" ∧ (TRS.set t.trs).rge = "XXXz") ∧
      (PLSSDesc.parse "-R97W Sec 14: NE/4" {}).tracts.map
          (fun t => (t.trs, t.desc, t.desc_is_flawed)) =
        [("XXXzXXXz14", "-R97W Sec 14: NE/4", true)] ∧
      "no_tr" ∈ (PLSSDesc.parse "-R97W Sec 14: NE/4" {}).e_flags := by
  refine ⟨?_, by decide, by decide⟩
  intro s cfg hmem0
  have hmem : "no_tr" ∈ descEFlags cfg s := hmem0
  have hTR : (scanDesc cfg s).sawTR = false := no_tr_sawTR hmem
  have hne : descEFlags cfg s ≠ [] := by
    intro hc
    rw [hc] at hmem
    simp at hmem
  have hflaw : (!(descEFlags cfg s).isEmpty) = true := by
    cases hE : (descEFlags cfg s).isEmpty with
    | false => rfl
    | true => exact absurd (List.isEmpty_iff.mp hE) hne
  refine ⟨hflaw, parse_tracts_ne_nil s cfg, ?_⟩
  intro t ht
  obtain ⟨t0, ht0, etrs, edesc, eflags, eflaw, _⟩ := mem_parse_stages ht
  refine ⟨?_, ?_, ?_, ?_, ?_⟩
  · rw [edesc, preTracts_desc_flawed hflaw t0 ht0]
  · rw [eflaw, hflaw]
  · rw [eflags]; exact hmem
  · rw [etrs]; exact (preTracts_trs_noTR hTR t0 ht0).1
  · rw [etrs]; exact (preTracts_trs_noTR hTR t0 ht0).2

/-- Witness for C2 at the documented example input. -/
theorem claim_c2_fatal_error_tract_witness :
    (PLSSDesc.parse "-R97W Sec 14: NE/4" {}).desc_is_flawed = true ∧
      (PLSSDesc.parse "-R97W Sec 14: NE/4" {}).tracts ≠ [] := by
  have h := claim_c2_fatal_error_tract.1 "-R97W Sec 14: NE/4" {} (by decide)
  exact ⟨h.1, h.2.1⟩

/-! ## Word splitting round trip (claim C4) -/

theorem wordsAux_chunk :
    ∀ (w acc rest : List Char), (∀ c ∈ w, isWS c = false) →
      wordsAux (w ++ rest) acc = wordsAux rest (w.reverse ++ acc) := by
  intro w
  induction w with
  | nil => intro acc rest _; simp
  | cons c w ih =>
    intro acc rest hws
    have hc : isWS c = false := hws c (by simp)
    show wordsAux (c :: (w ++ rest)) acc = _
    conv_lhs => rw [wordsAux]
    rw [if_neg (by rw [hc]; exact Bool.false_ne_true)]
    rw [ih (c :: acc) rest (fun x hx => hws x (by simp [hx]))]
    simp

theorem wordsAux_space (rest acc : List Char) :
    wordsAux (' ' :: rest) acc =
      if acc = [] then wordsAux rest [] else acc.reverse :: wordsAux rest [] := by
  conv_lhs => rw [wordsAux]
  rw [if_pos (by decide)]

theorem wordsOf_render (L : List (List Char))
    (hL : ∀ w ∈ L, w ≠ [] ∧ ∀ c ∈ w, isWS c = false) :
    wordsOf (renderWords L) = L := by
  induction L with
  | nil => rfl
  | cons w ws ih =>
    obtain ⟨hne, hws⟩ := hL w (by simp)
    have hrev : w.reverse ≠ [] := by simpa using hne
    cases ws with
    | nil =>
      show wordsAux (renderWords [w]) [] = [w]
      have : renderWords [w] = w ++ [] := by simp [renderWords]
      rw [this, wordsAux_chunk w [] [] hws]
      unfold wordsAux
      rw [if_neg (by simpa using hne)]
      simp
    | cons w2 ws2 =>
      show wordsAux (renderWords (w :: w2 :: ws2)) [] = _
      have : renderWords (w :: w2 :: ws2) =
          w ++ ' ' :: renderWords (w2 :: ws2) := rfl
      rw [this, wordsAux_chunk w [] _ hws, List.append_nil, wordsAux_space,
        if_neg hrev, List.reverse_reverse]
      show w :: wordsOf (renderWords (w2 :: ws2)) = w :: w2 :: ws2
      rw [ih (fun x hx => hL x (by simp [hx]))]

theorem wordsAux_shape :
    ∀ (s acc : List Char), (∀ c ∈ acc, isWS c = false) →
      ∀ w ∈ wordsAux s acc, w ≠ [] ∧ ∀ c ∈ w, isWS c = false := by
  intro s
  induction s with
  | nil =>
    intro acc hacc w hw
    unfold wordsAux at hw
    split at hw
    · simp at hw
    · next hne =>
      simp only [List.mem_singleton] at hw
      subst hw
      exact ⟨by simpa using hne, fun c hc => hacc c (by simpa using hc)⟩
  | cons c cs ih =>
    intro acc hacc w hw
    unfold wordsAux at hw
    by_cases hc : isWS c = true
    · rw [if_pos hc] at hw
      split at hw
      · exact ih [] (by simp) w hw
      · next hne =>
        rcases List.mem_cons.mp hw with h | h
        · subst h
          exact ⟨by simpa using hne, fun x hx => hacc x (by simpa using hx)⟩
        · exact ih [] (by simp) w h
    · rw [if_neg hc] at hw
      refine ih (c :: acc) ?_ w hw
      intro x hx
      rcases List.mem_cons.mp hx with h | h
      · subst h
        exact Bool.not_eq_true _ ▸ hc
      · exact hacc x h

theorem wordsOf_shape (s : List Char) :
    ∀ w ∈ wordsOf s, w ≠ [] ∧ ∀ c ∈ w, isWS c = false :=
  wordsAux_shape s [] (by simp)

/-! ## Preprocessing rewrites are stable (claim C4) -/

theorem subChar_digit {c : Char} (h : c.isDigit = true) : subChar c = c := by
  unfold subChar
  split_ifs with h1 h2 h3 h4
  · rw [beq_iff_eq] at h1; subst h1; exact absurd h (by decide)
  · rw [beq_iff_eq] at h2; subst h2; exact absurd h (by decide)
  · rw [beq_iff_eq] at h3; subst h3; exact absurd h (by decide)
  · rw [beq_iff_eq] at h4; subst h4; exact absurd h (by decide)
  · rfl

theorem subChar_target {c : Char}
    (h : (c.isDigit || c == 'O' || c == 'o' || c == 'l' || c == 'I') = true) :
    (subChar c).isDigit = true := by
  unfold subChar
  split_ifs with h1 h2 h3 h4
  · decide
  · decide
  · decide
  · decide
  · have e1 : (c == 'O') = false := by simpa using h1
    have e2 : (c == 'o') = false := by simpa using h2
    have e3 : (c == 'l') = false := by simpa using h3
    have e4 : (c == 'I') = false := by simpa using h4
    rw [e1, e2, e3, e4] at h
    simpa using h

theorem subChar_not_ws {c : Char} (h : isWS c = false) :
    isWS (subChar c) = false := by
  unfold subChar
  split_ifs <;> first | decide | exact h

theorem scrubW_idem (w : List Char) : scrubW (scrubW w) = scrubW w := by
  unfold scrubW
  by_cases ht : scrubTarget w = true
  · rw [if_pos ht]
    unfold scrubTarget at ht
    rw [Bool.and_eq_true] at ht
    have hall : ∀ c ∈ w,
        (c.isDigit || c == 'O' || c == 'o' || c == 'l' || c == 'I') = true := by
      intro c hc
      exact List.all_eq_true.mp ht.2 c hc
    have htgt : scrubTarget (w.map subChar) = true := by
      unfold scrubTarget
      rw [Bool.and_eq_true]
      constructor
      · obtain ⟨c, hc, hcd⟩ := List.any_eq_true.mp ht.1
        refine List.any_eq_true.mpr ⟨subChar c, List.mem_map_of_mem _ hc, ?_⟩
        exact subChar_target (hall c hc)
      · refine List.all_eq_true.mpr ?_
        intro x hx
        obtain ⟨c, hc, rfl⟩ := List.mem_map.mp hx
        rw [subChar_target (hall c hc)]
        rfl
    rw [if_pos htgt, List.map_map]
    refine List.map_congr_left ?_
    intro c hc
    show subChar (subChar c) = subChar c
    exact subChar_digit (subChar_target (hall c hc))
  · rw [if_neg ht, if_neg ht]

theorem scrubW_cons_T (l : List Char) : scrubW ('T' :: l) = 'T' :: l := by
  unfold scrubW scrubTarget
  rw [if_neg]
  intro hc
  rw [Bool.and_eq_true] at hc
  have := List.all_eq_true.mp hc.2 'T' (by simp)
  exact absurd this (by decide)

/-! ## Twp/Rge token round trip (claim C4) -/

theorem head_dropWhile (p : Char → Bool) :
    ∀ (l : List Char) (c : Char), (l.dropWhile p).head? = some c → p c = false := by
  intro l
  induction l with
  | nil => intro c h; simp [List.dropWhile] at h
  | cons a l ih =>
    intro c h
    rw [List.dropWhile_cons] at h
    split at h
    · exact ih c h
    · next hpa =>
      simp only [List.head?_cons, Option.some_inj] at h
      subst h
      exact Bool.not_eq_true _ ▸ hpa

theorem takeNum_spec {cs d r : List Char} (h : takeNum cs = some (d, r)) :
    d ≠ [] ∧ (∀ c ∈ d, c.isDigit = true) ∧ cs = d ++ r ∧
      ∀ c, r.head? = some c → c.isDigit = false := by
  simp only [takeNum] at h
  split at h
  · cases h
  · next hne =>
    simp only [Option.some_inj, Prod.mk.injEq] at h
    obtain ⟨rfl, rfl⟩ := h
    refine ⟨by simpa [List.isEmpty_iff] using hne, ?_, ?_, ?_⟩
    · intro c hc
      exact List.mem_takeWhile_imp hc
    · exact (List.takeWhile_append_dropWhile Char.isDigit cs).symm
    · intro c hc
      exact head_dropWhile Char.isDigit cs c hc

theorem takeWhile_append_of {p : Char → Bool} :
    ∀ (d r : List Char), (∀ c ∈ d, p c = true) →
      (∀ c, r.head? = some c → p c = false) →
      (d ++ r).takeWhile p = d ∧ (d ++ r).dropWhile p = r := by
  intro d
  induction d with
  | nil =>
    intro r _ hr
    cases r with
    | nil => exact ⟨rfl, rfl⟩
    | cons c cs =>
      have := hr c rfl
      constructor
      · rw [List.nil_append, List.takeWhile_cons, this]; rfl
      · rw [List.nil_append, List.dropWhile_cons, this]; rfl
  | cons a d ih =>
    intro r hd hr
    have ha : p a = true := hd a (by simp)
    obtain ⟨h1, h2⟩ := ih r (fun c hc => hd c (by simp [hc])) hr
    constructor
    · show ((a :: d) ++ r).takeWhile p = a :: d
      rw [List.cons_append, List.takeWhile_cons, ha]
      simp [h1]
    · show ((a :: d) ++ r).dropWhile p = r
      rw [List.cons_append, List.dropWhile_cons, ha]
      simp [h2]

theorem takeNum_append {d r : List Char} (hd : d ≠ [])
    (hdig : ∀ c ∈ d, c.isDigit = true)
    (hr : ∀ c, r.head? = some c → c.isDigit = false) :
    takeNum (d ++ r) = some (d, r) := by
  obtain ⟨h1, h2⟩ := takeWhile_append_of d r hdig hr
  simp only [takeNum, h1, h2]
  rw [if_neg (by simpa [List.isEmpty_iff] using hd)]

theorem parseTRw_digits {w : List Char} {t : TRRaw} (h : parseTRw w = some t) :
    t.td ≠ [] ∧ (∀ c ∈ t.td, c.isDigit = true) ∧ t.rd ≠ [] ∧
      (∀ c ∈ t.rd, c.isDigit = true) := by
  simp only [parseTRw] at h
  split at h
  · cases h
  · rename_i td r1 heq1
    split at h
    · rename_i r3 heq2
      split at h
      · cases h
      · rename_i rd r5 heq3
        split at h
        · cases h
          obtain ⟨h1, h2, _, _⟩ := takeNum_spec heq1
          obtain ⟨h3, h4, _, _⟩ := takeNum_spec heq3
          exact ⟨h1, h2, h3, h4⟩
        · split at h
          · cases h
            obtain ⟨h1, h2, _, _⟩ := takeNum_spec heq1
            obtain ⟨h3, h4, _, _⟩ := takeNum_spec heq3
            exact ⟨h1, h2, h3, h4⟩
          · cases h
        · cases h
    · cases h

theorem parseTRw_render_aux (td rd : List Char) (htd : td ≠ [])
    (htdd : ∀ c ∈ td, c.isDigit = true) (hrd : rd ≠ [])
    (hrdd : ∀ c ∈ rd, c.isDigit = true) (cns cew : Char) (tns : NSDir)
    (rew : EWDir) (hns : readNS cns = some tns) (hew : readEW cew = some rew)
    (hnsd : cns.isDigit = false) (hewd : cew.isDigit = false) :
    parseTRw ('T' :: (td ++ (cns :: '-' :: 'R' :: (rd ++ [cew])))) =
      some ⟨td, some tns, rd, some rew⟩ := by
  have hr1 : ∀ c, (cns :: '-' :: 'R' :: (rd ++ [cew])).head? = some c →
      c.isDigit = false := by
    intro c hc
    simp only [List.head?_cons, Option.some_inj] at hc
    subst hc
    exact hnsd
  have hr2 : ∀ c, ([cew] : List Char).head? = some c → c.isDigit = false := by
    intro c hc
    simp only [List.head?_cons, Option.some_inj] at hc
    subst hc
    exact hewd
  have h1 : takeNum (td ++ (cns :: '-' :: 'R' :: (rd ++ [cew]))) =
      some (td, cns :: '-' :: 'R' :: (rd ++ [cew])) :=
    takeNum_append htd htdd hr1
  have h2 : takeNum (rd ++ [cew]) = some (rd, [cew]) :=
    takeNum_append hrd hrdd hr2
  simp [parseTRw, h1, h2, readOptNS, hns, hew]

theorem parseTRw_render (t : TRTok) (htd : t.td ≠ [])
    (htdd : ∀ c ∈ t.td, c.isDigit = true) (hrd : t.rd ≠ [])
    (hrdd : ∀ c ∈ t.rd, c.isDigit = true) :
    parseTRw (renderTRword t) = some ⟨t.td, some t.tns, t.rd, some t.rew⟩ := by
  obtain ⟨td, tns, rd, rew⟩ := t
  exact parseTRw_render_aux td rd htd htdd hrd hrdd tns.up rew.up tns rew
    (by cases tns <;> decide) (by cases rew <;> decide)
    (by cases tns <;> decide) (by cases rew <;> decide)

theorem isWS_digit {c : Char} (h : c.isDigit = true) : isWS c = false := by
  have h1 : c ≠ ' ' := by intro e; subst e; exact absurd h (by decide)
  have h2 : c ≠ '\n' := by intro e; subst e; exact absurd h (by decide)
  have h3 : c ≠ '\t' := by intro e; subst e; exact absurd h (by decide)
  have h4 : c ≠ '\r' := by intro e; subst e; exact absurd h (by decide)
  simp [isWS, h1, h2, h3, h4]

theorem scrubW_shape (w : List Char) (hne : w ≠ [])
    (hws : ∀ c ∈ w, isWS c = false) :
    scrubW w ≠ [] ∧ ∀ c ∈ scrubW w, isWS c = false := by
  unfold scrubW
  split
  · constructor
    · simpa [List.map_eq_nil_iff] using hne
    · intro c hc
      obtain ⟨c0, hc0, rfl⟩ := List.mem_map.mp hc
      exact subChar_not_ws (hws c0 hc0)
  · exact ⟨hne, hws⟩

theorem fixWord_shape (cfg : Config) (w : List Char) (hne : w ≠ [])
    (hws : ∀ c ∈ w, isWS c = false) :
    fixWord cfg w ≠ [] ∧ ∀ c ∈ fixWord cfg w, isWS c = false := by
  cases hp : parseTRw (if cfg.ocr_scrub then scrubW w else w) with
  | none =>
    have hfix : fixWord cfg w = (if cfg.ocr_scrub then scrubW w else w) := by
      simp only [fixWord, hp]
    rw [hfix]
    split
    · exact scrubW_shape w hne hws
    · exact ⟨hne, hws⟩
  | some t =>
    have hfix : fixWord cfg w = renderTRword (completeTR cfg t) := by
      simp only [fixWord, hp]
    rw [hfix]
    obtain ⟨h1, h2, h3, h4⟩ := parseTRw_digits hp
    constructor
    · simp [renderTRword]
    · intro c hc
      simp only [renderTRword, List.mem_cons, List.mem_append,
        List.mem_singleton] at hc
      rcases hc with rfl | hc | rfl | rfl | rfl | hc | rfl | hf
      · decide
      · exact isWS_digit (h2 c hc)
      · cases (completeTR cfg t).tns <;> decide
      · decide
      · decide
      · exact isWS_digit (h4 c hc)
      · cases (completeTR cfg t).rew <;> decide
      · simp at hf

theorem fixWord_idem (cfg : Config) (w : List Char) :
    fixWord cfg (fixWord cfg w) = fixWord cfg w := by
  cases hp : parseTRw (if cfg.ocr_scrub then scrubW w else w) with
  | none =>
    have hfix : fixWord cfg w = (if cfg.ocr_scrub then scrubW w else w) := by
      simp only [fixWord, hp]
    rw [hfix]
    by_cases ho : cfg.ocr_scrub = true
    · rw [if_pos ho] at hp ⊢
      simp only [fixWord, if_pos ho, scrubW_idem, hp]
    · rw [if_neg ho] at hp ⊢
      simp only [fixWord, if_neg ho, hp]
  | some t =>
    have hfix : fixWord cfg w = renderTRword (completeTR cfg t) := by
      simp only [fixWord, hp]
    rw [hfix]
    obtain ⟨h1, h2, h3, h4⟩ := parseTRw_digits hp
    have hnorm : (if cfg.ocr_scrub
        then scrubW (renderTRword (completeTR cfg t))
        else renderTRword (completeTR cfg t)) =
        renderTRword (completeTR cfg t) := by
      by_cases ho : cfg.ocr_scrub = true
      · rw [if_pos ho]
        exact scrubW_cons_T _
      · rw [if_neg ho]
    simp only [fixWord, hnorm,
      parseTRw_render (completeTR cfg t) h1 h2 h3 h4]
    rfl

/-- Claim C4: preprocessing is idempotent; for every input text and every
configuration, feeding the preprocessed text back through preprocessing
produces the identical text (flag lists are computed separately and may
differ). -/
theorem claim_c4_preprocess_idempotent (cfg : Config) (s : List Char) :
    preprocessText cfg (preprocessText cfg s) = preprocessText cfg s := by
  unfold preprocessText
  have hshape : ∀ w ∈ (wordsOf s).map (fixWord cfg),
      w ≠ [] ∧ ∀ c ∈ w, isWS c = false := by
    intro w hw
    obtain ⟨w0, hw0, rfl⟩ := List.mem_map.mp hw
    obtain ⟨hh1, hh2⟩ := wordsOf_shape s w0 hw0
    exact fixWord_shape cfg w0 hh1 hh2
  rw [wordsOf_render _ hshape, List.map_map]
  congr 1
  refine List.map_congr_left ?_
  intro w _
  exact fixWord_idem cfg w

/-! ## Locality of the direction defaults (claim C8) -/

/-- Words produced by preprocessing parse back, when they parse at all, to
Twp/Rge tokens with both directions explicit. -/
theorem fixWord_out_explicit (cfg : Config) (w : List Char) :
    ∀ t, parseTRw (fixWord cfg w) = some t →
      t.tns.isSome = true ∧ t.rew.isSome = true := by
  intro t ht
  cases hp : parseTRw (if cfg.ocr_scrub then scrubW w else w) with
  | none =>
    have hfix : fixWord cfg w = (if cfg.ocr_scrub then scrubW w else w) := by
      simp only [fixWord, hp]
    rw [hfix, hp] at ht
    cases ht
  | some t0 =>
    have hfix : fixWord cfg w = renderTRword (completeTR cfg t0) := by
      simp only [fixWord, hp]
    obtain ⟨h1, h2, h3, h4⟩ := parseTRw_digits hp
    rw [hfix, parseTRw_render (completeTR cfg t0) h1 h2 h3 h4] at ht
    cases ht
    exact ⟨rfl, rfl⟩

/-- The extraction step consults the configuration only to complete a
matched Twp/Rge; on tokens with both directions explicit it does not
depend on the configuration at all. -/
theorem exStep_cfg_indep (c1 c2 : Config) (st : ExSt) (w : List Char)
    (hw : ∀ t, parseTRw w = some t →
      t.tns.isSome = true ∧ t.rew.isSome = true) :
    exStep c1 st w = exStep c2 st w := by
  cases hp : parseTRw w with
  | none => simp only [exStep, hp]
  | some t =>
    obtain ⟨hn, he⟩ := hw t hp
    obtain ⟨td, tns, rd, rew⟩ := t
    cases tns with
    | none => cases hn
    | some d1 =>
      cases rew with
      | none => cases he
      | some d2 => simp only [exStep, hp, completeTR, Option.getD_some]

theorem scanDesc_ns_indep (cfg : Config) (ns1 ns2 : NSDir) (s : String)
    (hs : ∀ w ∈ wordsOf s.toList,
      fixWord { cfg with default_ns := ns1 } w =
        fixWord { cfg with default_ns := ns2 } w) :
    scanDesc { cfg with default_ns := ns1 } s =
      scanDesc { cfg with default_ns := ns2 } s := by
  unfold scanDesc
  have hws : (wordsOf s.toList).map (fixWord { cfg with default_ns := ns1 }) =
      (wordsOf s.toList).map (fixWord { cfg with default_ns := ns2 }) :=
    List.map_congr_left hs
  rw [← hws]
  congr 1
  refine foldl_congr_mem ?_ ({} : ExSt)
  intro st w hw
  obtain ⟨w0, _, rfl⟩ := List.mem_map.mp hw
  exact exStep_cfg_indep _ _ st _
    (fixWord_out_explicit { cfg with default_ns := ns1 } w0)

theorem withIdx_map_trs : ∀ (n : Nat) (l : List Tract),
    (withIdx n l).map Tract.trs = l.map Tract.trs := by
  intro n l
  induction l generalizing n with
  | nil => rfl
  | cons x xs ih => simp [withIdx, ih]

theorem parse_tracts_map_trs (s : String) (cfg : Config) :
    (PLSSDesc.parse s cfg).tracts.map Tract.trs =
      (preTracts cfg s).map Tract.trs := by
  show ((withIdx 0 (applyQQ cfg (flagAll _ _ _ _))).map Tract.trs) = _
  rw [withIdx_map_trs]
  unfold applyQQ flagAll
  split
  · simp only [List.map_map]
    rfl
  · simp only [List.map_map]
    rfl

/-- Claim C8: changing default_ns (or default_ew) between two otherwise
identical parses does not affect tracts whose Twp (or Rge) carries an
explicit direction: the defaults are consulted only by Twp/Rge completion
and only for a missing direction, each completion emits a TR_fixed flag,
and when every Twp/Rge token of the input carries an explicit N/S, the
identities of the extracted tracts are untouched by default_ns. -/
theorem claim_c8_default_locality :
    (∀ (cfg : Config) (ns1 ns2 : NSDir) (w : List Char),
      (∀ t, parseTRw (if cfg.ocr_scrub then scrubW w else w) = some t →
        t.tns.isSome = true) →
      fixWord { cfg with default_ns := ns1 } w =
        fixWord { cfg with default_ns := ns2 } w) ∧
    (∀ (cfg : Config) (ew1 ew2 : EWDir) (w : List Char),
      (∀ t, parseTRw (if cfg.ocr_scrub then scrubW w else w) = some t →
        t.rew.isSome = true) →
      fixWord { cfg with default_ew := ew1 } w =
        fixWord { cfg with default_ew := ew2 } w) ∧
    (∀ (cfg : Config) (w : List Char) (t : TRRaw),
      parseTRw (if cfg.ocr_scrub then scrubW w else w) = some t →
      (t.tns.isNone || t.rew.isNone) = true → fixEmitsFlag cfg w = true) ∧
    (∀ (cfg : Config) (ns1 ns2 : NSDir) (s : String),
      (∀ w ∈ wordsOf s.toList, ∀ t,
        parseTRw (if cfg.ocr_scrub then scrubW w else w) = some t →
          t.tns.isSome = true) →
      (PLSSDesc.parse s { cfg with default_ns := ns1 }).tracts.map Tract.trs =
        (PLSSDesc.parse s { cfg with default_ns := ns2 }).tracts.map
          Tract.trs) := by
  have hword : ∀ (cfg : Config) (ns1 ns2 : NSDir) (w : List Char),
      (∀ t, parseTRw (if cfg.ocr_scrub then scrubW w else w) = some t →
        t.tns.isSome = true) →
      fixWord { cfg with default_ns := ns1 } w =
        fixWord { cfg with default_ns := ns2 } w := by
    intro cfg ns1 ns2 w hw
    cases hp : parseTRw (if cfg.ocr_scrub then scrubW w else w) with
    | none => simp only [fixWord, hp]
    | some t =>
      have hns := hw t hp
      obtain ⟨td, tns, rd, rew⟩ := t
      cases tns with
      | none => cases hns
      | some d1 => simp only [fixWord, hp, completeTR, Option.getD_some]
  refine ⟨hword, ?_, ?_, ?_⟩
  · intro cfg ew1 ew2 w hw
    cases hp : parseTRw (if cfg.ocr_scrub then scrubW w else w) with
    | none => simp only [fixWord, hp]
    | some t =>
      have hew := hw t hp
      obtain ⟨td, tns, rd, rew⟩ := t
      cases rew with
      | none => cases hew
      | some d2 => simp only [fixWord, hp, completeTR, Option.getD_some]
  · intro cfg w t hp hflag
    simp only [fixEmitsFlag, hp]
    exact hflag
  · intro cfg ns1 ns2 s hs
    rw [parse_tracts_map_trs, parse_tracts_map_trs]
    have hscan := scanDesc_ns_indep cfg ns1 ns2 s
      (fun w hw => hword cfg ns1 ns2 w (hs w hw))
    show (preTracts { cfg with default_ns := ns1 } s).map Tract.trs = _
    unfold preTracts descEFlags
    rw [hscan]

/-- Witness for C8 on a token with explicit directions. -/
theorem claim_c8_default_locality_witness :
    fixWord { default_ns := NSDir.north } (kw "T154N-R97W") =
      fixWord { default_ns := NSDir.south } (kw "T154N-R97W") := by
  have h := claim_c8_default_locality.1 {} NSDir.north NSDir.south
    (kw "T154N-R97W") (by decide)
  exact h

/-! ## TRS component coherence (claim C10) -/

theorem parseComp_undef (dirs rest : List Char) :
    parseComp dirs (kw "___z" ++ rest) =
      some (⟨kw "___z", none, none, true⟩, rest) := by
  unfold parseComp
  rw [if_pos]
  · rw [show (4 : Nat) = (kw "___z").length from rfl, List.drop_left]
  · rw [show (4 : Nat) = (kw "___z").length from rfl, List.take_left]

theorem parseComp_digits (dirs d : List Char) (c : Char) (rest : List Char)
    (hne : d ≠ []) (hdig : ∀ x ∈ d, x.isDigit = true)
    (hlen : ¬3 < d.length) (hc : dirs.contains c = true)
    (hcd : c.isDigit = false) :
    parseComp dirs (d ++ (c :: rest)) =
      some (⟨d ++ [c], some (toNatW d), some c, false⟩, rest) := by
  have hr : ∀ x, (c :: rest).head? = some x → x.isDigit = false := by
    intro x hx
    simp only [List.head?_cons, Option.some_inj] at hx
    subst hx
    exact hcd
  have htake : takeNum (d ++ (c :: rest)) = some (d, c :: rest) :=
    takeNum_append hne hdig hr
  obtain ⟨x, d2, rfl⟩ := List.exists_cons_of_ne_nil hne
  have hx : x.isDigit = true := hdig x (by simp)
  unfold parseComp
  rw [if_neg, if_neg]
  · rw [htake]
    simp [hlen, hc]
    constructor
    · simp only [List.length_cons] at hlen
      omega
    · simpa using hc
  · intro hcontra
    rw [show (4 : Nat) = 3 + 1 from rfl, List.cons_append,
      List.take_succ_cons] at hcontra
    injection hcontra with hx2 _
    subst hx2
    exact absurd hx (by decide)
  · intro hcontra
    rw [show (4 : Nat) = 3 + 1 from rfl, List.cons_append,
      List.take_succ_cons] at hcontra
    injection hcontra with hx2 _
    subst hx2
    exact absurd hx (by decide)

theorem parseComp_spec {dirs cs : List Char} {b : CompBits} {rest : List Char}
    (h : parseComp dirs cs = some (b, rest)) :
    cs = b.txt ++ rest ∧
      (b = ⟨kw "___z", none, none, true⟩ ∨ b = ⟨kw "XXXz", none, none, false⟩ ∨
        ∃ d c, b = ⟨d ++ [c], some (toNatW d), some c, false⟩ ∧ d ≠ [] ∧
          (∀ x ∈ d, x.isDigit = true) ∧ ¬3 < d.length ∧
          dirs.contains c = true ∧ c.isDigit = false) := by
  unfold parseComp at h
  split at h
  · next htake =>
    simp only [Option.some_inj, Prod.mk.injEq] at h
    obtain ⟨rfl, rfl⟩ := h
    constructor
    · show cs = kw "___z" ++ cs.drop 4
      rw [← htake]
      exact (List.take_append_drop 4 cs).symm
    · exact Or.inl rfl
  · split at h
    · next htake =>
      simp only [Option.some_inj, Prod.mk.injEq] at h
      obtain ⟨rfl, rfl⟩ := h
      constructor
      · show cs = kw "XXXz" ++ cs.drop 4
        rw [← htake]
        exact (List.take_append_drop 4 cs).symm
      · exact Or.inr (Or.inl rfl)
    · split at h
      · cases h
      · rename_i d r htake
        split at h
        · cases h
        · next hlen =>
          split at h
          · rename_i c rest2
            split at h
            · next hdirs =>
              simp only [Option.some_inj, Prod.mk.injEq] at h
              obtain ⟨rfl, rfl⟩ := h
              obtain ⟨hne, hdig, hcs, hhead⟩ := takeNum_spec htake
              refine ⟨?_, Or.inr (Or.inr ⟨d, c, rfl, hne, hdig, hlen, hdirs,
                hhead c rfl⟩)⟩
              rw [hcs]
              simp
            · cases h
          · cases h

theorem parseSec_self {cs : List Char} {v : List Char × Option Nat × Bool}
    (h : parseSec cs = some v) : v.1 = cs ∧ parseSec v.1 = some v := by
  have h1 : v.1 = cs := by
    unfold parseSec at h
    split at h
    · next he => cases h; rw [he]
    · split at h
      · next he => cases h; rw [he]
      · split at h
        · cases h; rfl
        · cases h
  exact ⟨h1, h1 ▸ h⟩

theorem parseSec_spec {cs : List Char} {sc : List Char} {sn : Option Nat}
    {su : Bool} (h : parseSec cs = some (sc, sn, su)) :
    (sc = kw "__" ∧ sn = none ∧ su = true) ∨
      (sc = kw "XX" ∧ sn = none ∧ su = false) ∨
      (sn.isSome = true ∧ su = false ∧ sc.length = 2 ∧
        ∀ x ∈ sc, x.isDigit = true) := by
  unfold parseSec at h
  split at h
  · cases h
    exact Or.inl ⟨rfl, rfl, rfl⟩
  · split at h
    · cases h
      exact Or.inr (Or.inl ⟨rfl, rfl, rfl⟩)
    · split at h
      · next hck =>
        cases h
        rw [Bool.and_eq_true] at hck
        refine Or.inr (Or.inr ⟨rfl, rfl, ?_, ?_⟩)
        · exact of_decide_eq_true hck.1
        · intro x hx
          exact List.all_eq_true.mp hck.2 x hx
      · cases h

theorem parseComp_render {dirs cs : List Char} {b : CompBits}
    {rest : List Char} (h : parseComp dirs cs = some (b, rest))
    (rest2 : List Char) : parseComp dirs (b.txt ++ rest2) = some (b, rest2) := by
  rcases (parseComp_spec h).2 with rfl | rfl |
    ⟨d, c, rfl, hne, hdig, hlen, hdirs, hcd⟩
  · exact parseComp_undef dirs rest2
  · exact parseComp_XXXz dirs rest2
  · show parseComp dirs ((d ++ [c]) ++ rest2) = _
    rw [List.append_assoc, List.singleton_append]
    exact parseComp_digits dirs d c rest2 hne hdig hlen hdirs hcd

theorem digitHead_ne {l : List Char} {x : Char} (hx : l.head? = some x)
    (hd : x.isDigit = true) :
    (⟨l⟩ : String) ≠ "___z" ∧ (⟨l⟩ : String) ≠ "XXXz" ∧
      (⟨l⟩ : String) ≠ "__" ∧ (⟨l⟩ : String) ≠ "XX" := by
  cases l with
  | nil => cases hx
  | cons a l2 =>
    simp only [List.head?_cons, Option.some_inj] at hx
    subst hx
    refine ⟨?_, ?_, ?_, ?_⟩ <;> intro h <;>
      have h2 := congrArg String.data h
    · rw [show ("___z" : String).data = ['_', '_', '_', 'z'] from by decide] at h2
      injection h2 with ha _
      subst ha
      exact absurd hd (by decide)
    · rw [show ("XXXz" : String).data = ['X', 'X', 'X', 'z'] from by decide] at h2
      injection h2 with ha _
      subst ha
      exact absurd hd (by decide)
    · rw [show ("__" : String).data = ['_', '_'] from by decide] at h2
      injection h2 with ha _
      subst ha
      exact absurd hd (by decide)
    · rw [show ("XX" : String).data = ['X', 'X'] from by decide] at h2
      injection h2 with ha _
      subst ha
      exact absurd hd (by decide)

theorem compBits_props {dirs cs : List Char} {b : CompBits} {rest : List Char}
    (h : parseComp dirs cs = some (b, rest)) :
    (b.num = none ↔
        ((⟨b.txt⟩ : String) = "___z" ∨ (⟨b.txt⟩ : String) = "XXXz")) ∧
      (b.dir = none ↔
        ((⟨b.txt⟩ : String) = "___z" ∨ (⟨b.txt⟩ : String) = "XXXz")) ∧
      (b.undef = true ↔ (⟨b.txt⟩ : String) = "___z") := by
  rcases (parseComp_spec h).2 with rfl | rfl |
    ⟨d, c, rfl, hne, hdig, _, _, _⟩
  · exact ⟨⟨fun _ => Or.inl (by decide), fun _ => rfl⟩,
      ⟨fun _ => Or.inl (by decide), fun _ => rfl⟩,
      ⟨fun _ => by decide, fun _ => rfl⟩⟩
  · exact ⟨⟨fun _ => Or.inr (by decide), fun _ => rfl⟩,
      ⟨fun _ => Or.inr (by decide), fun _ => rfl⟩,
      ⟨fun hc => absurd hc (by decide), fun hc => absurd hc (by decide)⟩⟩
  · obtain ⟨x, d2, rfl⟩ := List.exists_cons_of_ne_nil hne
    have hd := @digitHead_ne ((x :: d2) ++ [c]) x (by simp)
      (hdig x (by simp))
    refine ⟨⟨fun hc => absurd hc (by simp), fun hor => ?_⟩,
      ⟨fun hc => absurd hc (by simp), fun hor => ?_⟩,
      ⟨fun hc => absurd hc (by simp), fun hor => absurd hor hd.1⟩⟩ <;>
      rcases hor with hor | hor
    · exact absurd hor hd.1
    · exact absurd hor hd.2.1
    · exact absurd hor hd.1
    · exact absurd hor hd.2.1

theorem secBits_props {cs sc : List Char} {sn : Option Nat} {su : Bool}
    (h : parseSec cs = some (sc, sn, su)) :
    (sn = none ↔ ((⟨sc⟩ : String) = "__" ∨ (⟨sc⟩ : String) = "XX")) ∧
      (su = true ↔ (⟨sc⟩ : String) = "__") := by
  rcases parseSec_spec h with ⟨rfl, rfl, rfl⟩ | ⟨rfl, rfl, rfl⟩ |
    ⟨hsome, rfl, hlen, hdig⟩
  · exact ⟨⟨fun _ => Or.inl (by decide), fun _ => rfl⟩,
      ⟨fun _ => by decide, fun _ => rfl⟩⟩
  · exact ⟨⟨fun _ => Or.inr (by decide), fun _ => rfl⟩,
      ⟨fun hc => absurd hc (by decide), fun hc => absurd hc (by decide)⟩⟩
  · have hne : sc ≠ [] := by
      intro hc
      rw [hc] at hlen
      cases hlen
    obtain ⟨x, d2, rfl⟩ := List.exists_cons_of_ne_nil hne
    have hd := @digitHead_ne (x :: d2) x (by simp)
      (hdig x (by simp))
    constructor
    · constructor
      · intro hc
        rw [hc] at hsome
        cases hsome
      · intro hor
        rcases hor with hor | hor
        · exact absurd hor hd.2.2.1
        · exact absurd hor hd.2.2.2
    · constructor
      · intro hc
        cases hc
      · intro hor
        exact absurd hor hd.2.2.1

/-- Claim C10: every derived Twp/Rge/Sec attribute of a TRS record agrees
with its trs string: re-assigning the current trs reproduces the record
exactly, the trs and twprge strings recompose from the components, the
numeric and direction fields are None exactly when the component is the
undefined or the error sentinel (told apart by the undef booleans), and
set_twprgesec is assignment of the composed trs string. -/
theorem claim_c10_trs_components (s : String) :
    TRS.set (TRS.set s).trs = TRS.set s ∧
      (TRS.set s).trs = (TRS.set s).twp ++ (TRS.set s).rge ++ (TRS.set s).sec ∧
      (TRS.set s).twprge = (TRS.set s).twp ++ (TRS.set s).rge ∧
      ((TRS.set s).twp_num = none ↔
        ((TRS.set s).twp = "___z" ∨ (TRS.set s).twp = "XXXz")) ∧
      ((TRS.set s).twp_ns = none ↔
        ((TRS.set s).twp = "___z" ∨ (TRS.set s).twp = "XXXz")) ∧
      ((TRS.set s).twp_undef = true ↔ (TRS.set s).twp = "___z") ∧
      ((TRS.set s).rge_num = none ↔
        ((TRS.set s).rge = "___z" ∨ (TRS.set s).rge = "XXXz")) ∧
      ((TRS.set s).rge_ew = none ↔
        ((TRS.set s).rge = "___z" ∨ (TRS.set s).rge = "XXXz")) ∧
      ((TRS.set s).rge_undef = true ↔ (TRS.set s).rge = "___z") ∧
      ((TRS.set s).sec_num = none ↔
        ((TRS.set s).sec = "__" ∨ (TRS.set s).sec = "XX")) ∧
      ((TRS.set s).sec_undef = true ↔ (TRS.set s).sec = "__") ∧
      ∀ (tn rn sn2 : Nat) (ns : NSDir) (ew : EWDir),
        TRS.set_twprgesec tn rn sn2 ns ew =
          TRS.set (toString tn ++ ⟨[ns.lo]⟩ ++ toString rn ++ ⟨[ew.lo]⟩ ++
            pad2 sn2) := by
  cases h1 : parseComp (kw "ns") s.toList with
  | none =>
    have hset : TRS.set s = errComp := by simp only [TRS.set, h1]
    rw [hset]
    refine ⟨by decide, by decide, by decide, by decide, by decide, by decide,
      by decide, by decide, by decide, by decide, by decide,
      fun tn rn sn2 ns ew => rfl⟩
  | some p1 =>
    obtain ⟨tc, rest1⟩ := p1
    cases h2 : parseComp (kw "ew") rest1 with
    | none =>
      have hset : TRS.set s = errComp := by simp only [TRS.set, h1, h2]
      rw [hset]
      refine ⟨by decide, by decide, by decide, by decide, by decide, by decide,
        by decide, by decide, by decide, by decide, by decide,
        fun tn rn sn2 ns ew => rfl⟩
    | some p2 =>
      obtain ⟨rc, rest2⟩ := p2
      cases h3 : parseSec rest2 with
      | none =>
        have hset : TRS.set s = errComp := by simp only [TRS.set, h1, h2, h3]
        rw [hset]
        refine ⟨by decide, by decide, by decide, by decide, by decide,
          by decide, by decide, by decide, by decide, by decide, by decide,
          fun tn rn sn2 ns ew => rfl⟩
      | some v =>
        obtain ⟨sc, sn, su⟩ := v
        have hset : TRS.set s =
            { trs := ⟨tc.txt ++ rc.txt ++ sc⟩
              twp := ⟨tc.txt⟩, twp_num := tc.num, twp_ns := tc.dir
              twp_undef := tc.undef
              rge := ⟨rc.txt⟩, rge_num := rc.num, rge_ew := rc.dir
              rge_undef := rc.undef
              sec := ⟨sc⟩, sec_num := sn, sec_undef := su
              twprge := ⟨tc.txt ++ rc.txt⟩ } := by
          simp only [TRS.set, h1, h2, h3]
        rw [hset]
        obtain ⟨hA1, hA2, hA3⟩ := compBits_props h1
        obtain ⟨hB1, hB2, hB3⟩ := compBits_props h2
        obtain ⟨hS1, hS2⟩ := secBits_props h3
        refine ⟨?_, rfl, rfl, hA1, hA2, hA3, hB1, hB2, hB3, hS1, hS2,
          fun tn rn sn2 ns ew => rfl⟩
        have hP1 : parseComp (kw "ns") (tc.txt ++ (rc.txt ++ sc)) =
            some (tc, rc.txt ++ sc) := parseComp_render h1 _
        have hP2 : parseComp (kw "ew") (rc.txt ++ sc) = some (rc, sc) :=
          parseComp_render h2 _
        have hP3 : parseSec sc = some (sc, sn, su) := (parseSec_self h3).2
        have hres : TRS.set ⟨tc.txt ++ rc.txt ++ sc⟩ =
            TRS.set ⟨tc.txt ++ (rc.txt ++ sc)⟩ := by
          rw [List.append_assoc]
        rw [hres]
        simp only [TRS.set, String.toList, hP1, hP2, hP3]

/-- Witness obligations do not arise for C10 (no hypotheses), but the
record on a concrete value confirms the statement concretely. -/
theorem TRS_set_concrete_values :
    (TRS.set "154n97w14").twp_num = some 154 ∧
      (TRS.set "154n97w14").sec_num = some 14 ∧
      (TRS.set "garbage").trs = "XXXzXXXzXX" := by
  refine ⟨by decide, by decide, by decide⟩

end Pytrs
